import Mathlib

/-!
Verification of `ScanFiles.py` (multi-pattern term scanner).

Python strings are embedded as lists of Unicode code points (`List Char`),
dictionaries as insertion-ordered association lists, and file contents as
`Option (List Str)` (`none` when the file cannot be opened or read).
The flashtext `KeywordProcessor` used by `BuildKeywordProcessor` is an
external library whose source is not part of this repository; it is
modelled from the spec (sections 4.2 and 4.3): an overlap-tolerant scan
producing every pattern occurrence, filtered by the alphanumeric-adjacency
whole-token boundary rule.
-/

/-- A Python string, as its sequence of Unicode code points. -/
abbrev Str := List Char

/-- A hit: (relative file path, 1-based line number), as appended by
`process_file` at `term_hits.setdefault(term, []).append((relpath, i))`. -/
abbrev Hit := Str × Nat

/-- Convert a Lean string literal to the embedded string type. -/
def str (s : String) : Str := s.data

/-- Python `str.lower()`, code point by code point. -/
def lower (s : Str) : Str := s.map Char.toLower

/-- Helper for `splitWs`: accumulates the current word (reversed). -/
def splitWsAux : Str → Str → List Str
  | [], cur => if cur = [] then [] else [cur.reverse]
  | c :: rest, cur =>
    if c.isWhitespace then
      (if cur = [] then splitWsAux rest [] else cur.reverse :: splitWsAux rest [])
    else splitWsAux rest (c :: cur)

/-- Python `str.split()` with no argument: split on runs of whitespace,
discarding empty fields. Used by `LoadTermList` (`f.read().split()`). -/
def splitWs (s : Str) : List Str := splitWsAux s []

/-- Python dict insertion `d[k] = v`: replace the value at an existing key
(keeping its position), else append the new key at the end. -/
def dictInsert (k : Str) (v : List Hit) : List (Str × List Hit) → List (Str × List Hit)
  | [] => [(k, v)]
  | (k', v') :: rest =>
    if k' = k then (k', v) :: rest else (k', v') :: dictInsert k v rest

/-- Python `d.setdefault(k, []).append(x)`: append one element to the list
stored at `k`, inserting `(k, [x])` at the end if `k` is absent. -/
def dictAppend (k : Str) (x : Hit) : List (Str × List Hit) → List (Str × List Hit)
  | [] => [(k, [x])]
  | (k', v') :: rest =>
    if k' = k then (k', v' ++ [x]) :: rest else (k', v') :: dictAppend k x rest

/-- Python `d[k].extend(xs)`: `none` models the `KeyError` raised when `k`
is not a key of `d`. -/
def dictExtend (k : Str) (xs : List Hit) : List (Str × List Hit) → Option (List (Str × List Hit))
  | [] => none
  | (k', v') :: rest =>
    if k' = k then some ((k', v' ++ xs) :: rest)
    else (dictExtend k xs rest).map (fun d => (k', v') :: d)

/-- Python `d.get(k, [])`: the value stored at `k`, or `[]`. -/
def dictGet (k : Str) : List (Str × List Hit) → List Hit
  | [] => []
  | (k', v') :: rest => if k' = k then v' else dictGet k rest

/-- The error raised by `LoadTermList` when the term-list file is absent
(`raise FileNotFoundError(...)`, ScanFiles.py line 25). -/
inductive LoadError where
  | fileNotFound
deriving DecidableEq, Repr

/-- Embeds `LoadTermList` (ScanFiles.py lines 9–29). The file is `none`
when absent at the given path; otherwise `some content` where `content`
is the decoded text. The returned dict maps each whitespace-delimited
term — lower-cased unless `case_sensitive` — to a fresh empty hit list,
via the comprehension
`{term if case_sensitive else term.lower(): [] for term in terms}`. -/
def LoadTermList (file : Option Str) (case_sensitive : Bool) :
    Except LoadError (List (Str × List Hit)) :=
  match file with
  | none => .error .fileNotFound
  | some content =>
    .ok ((splitWs content).foldl
      (fun d term => dictInsert (if case_sensitive then term else lower term) [] d) [])

/-- Modelled from the spec: the flashtext `KeywordProcessor` (external
library, not part of this repository). Per spec section 4.2, case
sensitivity is realized at build time by canonicalizing every pattern's
matching string; the original term is kept as the pattern identity
(result-table key). Each entry pairs the canonical matching string with
the original term. -/
structure KeywordProcessor where
  case_sensitive : Bool
  keywords : List (Str × Str)
deriving DecidableEq, Repr

/-- Modelled from the spec: `KeywordProcessor.add_keyword(term)` stores the
canonicalized matching string (lower-cased when case-insensitive) with the
original term as its identity. -/
def addKeyword (kp : KeywordProcessor) (term : Str) : KeywordProcessor :=
  { kp with keywords :=
      kp.keywords ++ [((if kp.case_sensitive then term else lower term), term)] }

/-- Embeds `BuildKeywordProcessor` (ScanFiles.py lines 49–65): starts from
an empty processor and adds every term. -/
def BuildKeywordProcessor (terms : List Str) (case_sensitive : Bool) : KeywordProcessor :=
  terms.foldl addKeyword { case_sensitive, keywords := [] }

/-- Modelled from the spec (section 4.2): the automaton scan returns every
pattern occurrence `(startOffset, endOffset, patternIdentity)` in the
line, including occurrences that start inside another match
(overlap-tolerant, not longest-match-only). An empty pattern never
matches. -/
def rawMatches (kp : KeywordProcessor) (line : Str) : List (Nat × Nat × Str) :=
  kp.keywords.flatMap fun pk =>
    (List.range (line.length + 1)).filterMap fun i =>
      if pk.1 ≠ [] ∧ (line.drop i).take pk.1.length = pk.1 then
        some (i, i + pk.1.length, pk.2)
      else none

/-- Modelled from the spec (section 4.3): a match is accepted only if the
character immediately before `startOffset` (none at line start) and the
character immediately after `endOffset` (none at line end) are both not
alphanumeric. -/
def isWholeToken (line : Str) (s e : Nat) : Bool :=
  (match (if s = 0 then none else line.get? (s - 1)) with
   | none => true
   | some c => !c.isAlphanum) &&
  (match line.get? e with
   | none => true
   | some c => !c.isAlphanum)

/-- Modelled from the spec: the raw automaton hits that survive the
whole-token boundary filter. -/
def acceptedMatches (kp : KeywordProcessor) (line : Str) : List (Nat × Nat × Str) :=
  (rawMatches kp line).filter fun m => isWholeToken line m.1 m.2.1

/-- Modelled from the spec: `keyword_processor.extract_keywords(line)`
returns the pattern identity of each accepted occurrence. The caller
(`process_file`) passes line text already canonicalized for case. -/
def extract_keywords (kp : KeywordProcessor) (line : Str) : List Str :=
  (acceptedMatches kp line).map fun m => m.2.2

/-- Embeds `set(keyword_processor.extract_keywords(check_line))` of
`process_file` (ScanFiles.py lines 84–85): the distinct terms found on one
line, after canonicalizing the line for case. Python set iteration order
is arbitrary; the model fixes one dedup order. -/
def foundTerms (kp : KeywordProcessor) (case_sensitive : Bool) (line : Str) : List Str :=
  let check_line := if case_sensitive then line else lower line
  (extract_keywords kp check_line).dedup

/-- Embeds the body of the `for i, line in enumerate(f, 1)` loop of
`process_file` (ScanFiles.py lines 83–89) for one line: append
`(relpath, i)` once per found term. -/
def processLine (kp : KeywordProcessor) (case_sensitive : Bool) (relpath : Str)
    (term_hits : List (Str × List Hit)) (i : Nat) (line : Str) :
    List (Str × List Hit) :=
  (foundTerms kp case_sensitive line).foldl
    (fun th term => dictAppend term (relpath, i) th) term_hits

/-- Embeds `process_file` (ScanFiles.py lines 67–92). `content` is `none`
when `open` itself raises (the `except: pass` path entered before any
line is read, returning the initial empty `term_hits`); otherwise the
list of lines the iteration yields. A read that fails mid-file is
observationally the prefix of lines read before the failure (see
`process_file_errs` for that error path made explicit). `relpath` stands
for `os.path.relpath(filepath, start=root_path)`. -/
def process_file (content : Option (List Str)) (relpath : Str)
    (keyword_processor : KeywordProcessor) (case_sensitive : Bool) :
    List (Str × List Hit) :=
  match content with
  | none => []
  | some lines =>
    (lines.enumFrom 1).foldl
      (fun th il => processLine keyword_processor case_sensitive relpath th il.1 il.2) []

/-- The outcome of iterating a file's lines inside `process_file`'s
`try` block: the lines the iterator yielded, and whether iteration then
aborted with an error (caught by the bare `except`) instead of reaching
the end of the file. -/
structure ReadOutcome where
  lines : List Str
  aborted : Bool
deriving DecidableEq, Repr

/-- Embeds `process_file` (ScanFiles.py lines 67–92) with the error path
of its bare `except` (lines 90–91) made explicit: `none` when `open`
itself raises, otherwise the read outcome. The `try` wraps the whole
loop, and `except: pass` discards the error, so the `term_hits`
accumulated so far is returned in every case — for a read that aborts
mid-file, the hits from the lines yielded before the failure. -/
def process_file_errs (content : Option ReadOutcome) (relpath : Str)
    (keyword_processor : KeywordProcessor) (case_sensitive : Bool) :
    List (Str × List Hit) :=
  match content with
  | none => []
  | some r =>
    (r.lines.enumFrom 1).foldl
      (fun th il => processLine keyword_processor case_sensitive relpath th il.1 il.2) []

/-- Embeds the merge of one worker result into the shared `termList`
(ScanFiles.py lines 113–114): `termList[term].extend(hits)` for each
`(term, hits)` of the result; `none` models the `KeyError` when a term is
not a key of `termList`. -/
def mergeResult (termList : List (Str × List Hit)) (result : List (Str × List Hit)) :
    Option (List (Str × List Hit)) :=
  result.foldl (fun acc p => acc.bind (dictExtend p.1 p.2)) (some termList)

/-- Embeds the `as_completed` merge loop of `ScanFiles` (ScanFiles.py
lines 111–114): worker results are merged one at a time, in completion
order, into the shared `termList`. -/
def mergeAll (termList : List (Str × List Hit)) (results : List (List (Str × List Hit))) :
    Option (List (Str × List Hit)) :=
  results.foldl (fun acc r => acc.bind (fun d => mergeResult d r)) (some termList)

/-- Embeds `ScanFiles` (ScanFiles.py lines 94–114): build one keyword
processor from `termList`'s keys, scan every file, and merge all per-file
results. Each file is given as its relative path paired with its content
(`none` when unreadable); `order` is the completion order of the workers
(`as_completed` yields futures in an unspecified order). -/
def ScanFiles (files : List (Str × Option (List Str)))
    (termList : List (Str × List Hit)) (case_sensitive : Bool) :
    Option (List (Str × List Hit)) :=
  let keyword_processor := BuildKeywordProcessor (termList.map Prod.fst) case_sensitive
  mergeAll termList
    (files.map fun f => process_file f.2 f.1 keyword_processor case_sensitive)

/-- The header row written by `WriteOutput` (ScanFiles.py line 154). -/
def headerRow : List Str := [str "Word", str "Filepath", str "Line Number"]

/-- The cell text `csv.writer` produces for a line number. -/
def natCell (n : Nat) : Str := (Nat.repr n).data

/-- Embeds `WriteOutput` (ScanFiles.py lines 140–159) as the list of CSV
rows it writes: the header, then, per term in dict order, one row per hit,
or a single `N/A` row when the term's hit list is empty. -/
def WriteOutput (termList : List (Str × List Hit)) : List (List Str) :=
  termList.foldl
    (fun acc p =>
      if p.2 ≠ [] then acc ++ p.2.map (fun h => [p.1, h.1, natCell h.2])
      else acc ++ [[p.1, str "N/A", str "N/A"]])
    [headerRow]

/-- The CSV rows contributed by one `termList` entry: one row per hit, or
a single `N/A` row when the hit list is empty. -/
def rowsFor (p : Str × List Hit) : List (List Str) :=
  if p.2 = [] then [[p.1, str "N/A", str "N/A"]]
  else p.2.map (fun h => [p.1, h.1, natCell h.2])

/-- The hits a worker result `r` holds for term `t`, in `r`'s pair order. -/
def resHits (t : Str) (r : List (Str × List Hit)) : List Hit :=
  r.flatMap (fun p => if p.1 = t then p.2 else [])

/-- The hits `process_file` records for term `t` from the indexed lines
`pairs`: one `(relpath, lineNumber)` per line whose found-term set holds
`t`. -/
def lineHits (kp : KeywordProcessor) (cs : Bool) (relpath t : Str)
    (pairs : List (Nat × Str)) : List Hit :=
  pairs.filterMap fun il =>
    if t ∈ foundTerms kp cs il.2 then some (relpath, il.1) else none

section Lemmas

/-- An occurrence of a nonempty pattern lies inside the line. -/
lemma occ_le_length {line pat : Str} {i : Nat} (hne : pat ≠ [])
    (hocc : (line.drop i).take pat.length = pat) :
    i + pat.length ≤ line.length := by
  have h1 := congrArg List.length hocc
  rw [List.length_take, List.length_drop] at h1
  have h2 : 0 < pat.length := List.length_pos.mpr hne
  omega

/-- Completeness of the raw automaton scan: every occurrence of every
nonempty pattern in the line is among the raw matches. -/
lemma mem_rawMatches_occ {kp : KeywordProcessor} {line pat name : Str} {i : Nat}
    (hk : (pat, name) ∈ kp.keywords) (hne : pat ≠ [])
    (hocc : (line.drop i).take pat.length = pat) :
    (i, i + pat.length, name) ∈ rawMatches kp line := by
  have hle := occ_le_length hne hocc
  unfold rawMatches
  refine List.mem_flatMap.mpr ⟨(pat, name), hk, ?_⟩
  refine List.mem_filterMap.mpr ⟨i, ?_, ?_⟩
  · exact List.mem_range.mpr (by omega)
  · simp [hne, hocc]

/-- Every raw match arises from an occurrence of some keyword. -/
lemma rawMatches_mem_iff {kp : KeywordProcessor} {line : Str} {m : Nat × Nat × Str} :
    m ∈ rawMatches kp line ↔
      ∃ pat, (pat, m.2.2) ∈ kp.keywords ∧ pat ≠ [] ∧ m.2.1 = m.1 + pat.length ∧
        m.1 < line.length + 1 ∧ (line.drop m.1).take pat.length = pat := by
  unfold rawMatches
  constructor
  · intro h
    obtain ⟨pk, hpk, h⟩ := List.mem_flatMap.mp h
    obtain ⟨i, hi, hf⟩ := List.mem_filterMap.mp h
    by_cases hc : pk.1 ≠ [] ∧ (line.drop i).take pk.1.length = pk.1
    · rw [if_pos hc] at hf
      cases hf
      exact ⟨pk.1, by simpa using hpk, hc.1, rfl, List.mem_range.mp hi, hc.2⟩
    · rw [if_neg hc] at hf
      cases hf
  · rintro ⟨pat, hk, hne, he, hi, hocc⟩
    refine List.mem_flatMap.mpr ⟨(pat, m.2.2), hk, ?_⟩
    refine List.mem_filterMap.mpr ⟨m.1, List.mem_range.mpr hi, ?_⟩
    rw [if_pos ⟨hne, hocc⟩]
    obtain ⟨a, b, c⟩ := m
    simp_all

/-- Every extracted keyword is the identity of some added keyword. -/
lemma extract_keywords_subset {kp : KeywordProcessor} {line name : Str}
    (h : name ∈ extract_keywords kp line) : name ∈ kp.keywords.map Prod.snd := by
  unfold extract_keywords acceptedMatches at h
  obtain ⟨m, hm, he⟩ := List.mem_map.mp h
  have hraw := (List.mem_filter.mp hm).1
  obtain ⟨pat, hk, -, -, -, -⟩ := rawMatches_mem_iff.mp hraw
  exact List.mem_map.mpr ⟨(pat, m.2.2), hk, by rw [he]⟩

/-- `BuildKeywordProcessor` records exactly the given terms as keyword
identities, in order, and keeps the case flag. -/
lemma BuildKeywordProcessor_keywords (terms : List Str) (cs : Bool) :
    (BuildKeywordProcessor terms cs).keywords.map Prod.snd = terms ∧
      (BuildKeywordProcessor terms cs).case_sensitive = cs := by
  have key : ∀ (ts : List Str) (kp : KeywordProcessor),
      (ts.foldl addKeyword kp).keywords.map Prod.snd = kp.keywords.map Prod.snd ++ ts ∧
        (ts.foldl addKeyword kp).case_sensitive = kp.case_sensitive := by
    intro ts
    induction ts with
    | nil => intro kp; simp
    | cons t ts ih =>
      intro kp
      have h := ih (addKeyword kp t)
      simp only [List.foldl_cons]
      rw [h.1, h.2]
      unfold addKeyword
      simp
  have h := key terms { case_sensitive := cs, keywords := [] }
  unfold BuildKeywordProcessor
  simpa using h

/-- Reading through a `setdefault`/`append` update. -/
lemma dictGet_dictAppend (t k : Str) (x : Hit) (th : List (Str × List Hit)) :
    dictGet t (dictAppend k x th) =
      if t = k then dictGet t th ++ [x] else dictGet t th := by
  induction th with
  | nil =>
    by_cases h : t = k <;> simp [dictAppend, dictGet, h, eq_comm]
  | cons p rest ih =>
    by_cases hk : p.1 = k
    · subst hk
      by_cases hpt : p.1 = t
      · subst hpt; simp [dictAppend, dictGet]
      · have h2 : ¬ t = p.1 := fun h => hpt h.symm
        simp [dictAppend, dictGet, hpt, h2]
    · by_cases hpt : p.1 = t
      · have h2 : ¬ t = k := fun h => hk (hpt.trans h)
        simp [dictAppend, dictGet, hk, hpt, h2]
      · simp [dictAppend, dictGet, hk, hpt, ih]

/-- Key membership through a `setdefault`/`append` update. -/
lemma mem_keys_dictAppend (t k : Str) (x : Hit) (th : List (Str × List Hit)) :
    t ∈ (dictAppend k x th).map Prod.fst ↔ t ∈ th.map Prod.fst ∨ t = k := by
  induction th with
  | nil => simp [dictAppend, eq_comm]
  | cons p rest ih =>
    by_cases hk : p.1 = k <;> simp [dictAppend, hk, ih] <;> tauto

/-- Reading through the per-line fold of `setdefault`/`append` updates
over the (distinct) found terms. -/
lemma dictGet_foldAppend (t : Str) (x : Hit) (ts : List Str)
    (th : List (Str × List Hit)) (hnd : ts.Nodup) :
    dictGet t (ts.foldl (fun th term => dictAppend term x th) th) =
      if t ∈ ts then dictGet t th ++ [x] else dictGet t th := by
  induction ts generalizing th with
  | nil => simp
  | cons k ts ih =>
    have hnd' : ts.Nodup := hnd.of_cons
    have hk : k ∉ ts := (List.nodup_cons.mp hnd).1
    simp only [List.foldl_cons]
    rw [ih (dictAppend k x th) hnd', dictGet_dictAppend]
    by_cases ht : t ∈ ts
    · have hne : ¬ t = k := fun h => hk (h ▸ ht)
      simp [ht, hne]
    · by_cases he : t = k
      · subst he; simp [ht, hk]
      · simp [ht, he, List.mem_cons]

/-- Key membership through the per-line fold. -/
lemma mem_keys_foldAppend (t : Str) (x : Hit) (ts : List Str)
    (th : List (Str × List Hit)) :
    t ∈ ((ts.foldl (fun th term => dictAppend term x th) th).map Prod.fst) ↔
      t ∈ th.map Prod.fst ∨ t ∈ ts := by
  induction ts generalizing th with
  | nil => simp
  | cons k ts ih =>
    simp only [List.foldl_cons]
    rw [ih (dictAppend k x th), mem_keys_dictAppend]
    simp only [List.mem_cons]
    tauto

/-- Reading through one `processLine` step. -/
lemma dictGet_processLine (kp : KeywordProcessor) (cs : Bool) (rp t : Str)
    (th : List (Str × List Hit)) (i : Nat) (line : Str) :
    dictGet t (processLine kp cs rp th i line) =
      if t ∈ foundTerms kp cs line then dictGet t th ++ [(rp, i)]
      else dictGet t th := by
  unfold processLine
  exact dictGet_foldAppend t (rp, i) _ th (List.nodup_dedup _)

/-- Reading through the whole line-by-line fold of `process_file`. -/
lemma dictGet_foldProcess (kp : KeywordProcessor) (cs : Bool) (rp t : Str)
    (pairs : List (Nat × Str)) (th : List (Str × List Hit)) :
    dictGet t (pairs.foldl (fun th il => processLine kp cs rp th il.1 il.2) th) =
      dictGet t th ++ lineHits kp cs rp t pairs := by
  induction pairs generalizing th with
  | nil => simp [lineHits]
  | cons il pairs ih =>
    simp only [List.foldl_cons]
    rw [ih (processLine kp cs rp th il.1 il.2), dictGet_processLine]
    by_cases h : il.2 ∈ [] ∨ t ∈ foundTerms kp cs il.2
    all_goals by_cases hf : t ∈ foundTerms kp cs il.2 <;>
      simp [lineHits, hf, List.filterMap_cons]

/-- The hit list `process_file` records for a term, in closed form. -/
lemma dictGet_process_file (kp : KeywordProcessor) (cs : Bool) (rp t : Str)
    (lines : List Str) :
    dictGet t (process_file (some lines) rp kp cs) =
      lineHits kp cs rp t (lines.enumFrom 1) := by
  unfold process_file
  rw [dictGet_foldProcess]
  simp [dictGet]

/-- Every recorded line hit comes from one of the indexed lines. -/
lemma mem_lineHits {kp : KeywordProcessor} {cs : Bool} {rp t : Str}
    {pairs : List (Nat × Str)} {h : Hit} (hm : h ∈ lineHits kp cs rp t pairs) :
    ∃ il ∈ pairs, h = (rp, il.1) := by
  obtain ⟨il, hil, hf⟩ := List.mem_filterMap.mp hm
  by_cases hc : t ∈ foundTerms kp cs il.2
  · rw [if_pos hc] at hf
    exact ⟨il, hil, (Option.some_inj.mp hf).symm⟩
  · rw [if_neg hc] at hf; cases hf

/-- Strictly increasing line indices give strictly increasing hits. -/
lemma lineHits_pairwise {kp : KeywordProcessor} {cs : Bool} {rp t : Str}
    {pairs : List (Nat × Str)}
    (hp : pairs.Pairwise (fun a b => a.1 < b.1)) :
    (lineHits kp cs rp t pairs).Pairwise (fun a b => a.2 < b.2) := by
  induction pairs with
  | nil => simp [lineHits]
  | cons il pairs ih =>
    have hrest := ih (List.Pairwise.of_cons hp)
    have hlt : ∀ q ∈ pairs, il.1 < q.1 := fun q hq => List.rel_of_pairwise_cons hp hq
    by_cases hc : t ∈ foundTerms kp cs il.2
    · simp only [lineHits, List.filterMap_cons, if_pos hc]
      refine List.pairwise_cons.mpr ⟨?_, hrest⟩
      intro h hm
      obtain ⟨q, hq, he⟩ := mem_lineHits hm
      rw [he]
      exact hlt q hq
    · simpa [lineHits, List.filterMap_cons, if_neg hc] using hrest

/-- Every recorded line hit has a line number from the indexed lines. -/
lemma lineHits_lower {kp : KeywordProcessor} {cs : Bool} {rp t : Str}
    {n : Nat} {lines : List Str} {h : Hit}
    (hm : h ∈ lineHits kp cs rp t (lines.enumFrom n)) : n ≤ h.2 := by
  obtain ⟨il, hil, he⟩ := mem_lineHits hm
  have := List.mk_mem_enumFrom_iff_le_and_getElem?_sub.mp (show (il.1, il.2) ∈ lines.enumFrom n from hil)
  rw [he]
  exact this.1

/-- The line indices produced by `enumFrom` are strictly increasing. -/
lemma enumFrom_pairwise (n : Nat) (lines : List Str) :
    (lines.enumFrom n).Pairwise (fun a b => a.1 < b.1) := by
  induction lines generalizing n with
  | nil => simp
  | cons l lines ih =>
    simp only [List.enumFrom_cons]
    refine List.pairwise_cons.mpr ⟨?_, ih (n + 1)⟩
    intro q hq
    have := List.mk_mem_enumFrom_iff_le_and_getElem?_sub.mp
      (show (q.1, q.2) ∈ lines.enumFrom (n + 1) from hq)
    omega

/-- The hits `process_file` records for a term are strictly increasing in
line number, and all line numbers are at least 1. -/
lemma process_file_sorted (kp : KeywordProcessor) (cs : Bool) (rp t : Str)
    (lines : List Str) :
    (dictGet t (process_file (some lines) rp kp cs)).Pairwise
        (fun a b => a.2 < b.2) ∧
      ∀ h ∈ dictGet t (process_file (some lines) rp kp cs), 1 ≤ h.2 := by
  rw [dictGet_process_file]
  exact ⟨lineHits_pairwise (enumFrom_pairwise 1 lines),
    fun h hm => lineHits_lower hm⟩

/-- Every key of a `process_file` result names an extracted keyword, hence
one of the keyword processor's identities. -/
lemma process_file_keys_subset {content : Option (List Str)} {rp : Str}
    {kp : KeywordProcessor} {cs : Bool} {p : Str × List Hit}
    (hp : p ∈ process_file content rp kp cs) :
    p.1 ∈ kp.keywords.map Prod.snd := by
  match content with
  | none => simp [process_file] at hp
  | some lines =>
    have key : ∀ (pairs : List (Nat × Str)) (th : List (Str × List Hit)) (t : Str),
        t ∈ ((pairs.foldl (fun th il => processLine kp cs rp th il.1 il.2) th).map
          Prod.fst) → t ∈ th.map Prod.fst ∨
            ∃ il ∈ pairs, t ∈ foundTerms kp cs il.2 := by
      intro pairs
      induction pairs with
      | nil => intro th t h; exact Or.inl h
      | cons il pairs ih =>
        intro th t h
        simp only [List.foldl_cons] at h
        rcases ih _ t h with h1 | h1
        · unfold processLine at h1
          rcases (mem_keys_foldAppend t (rp, il.1) _ th).mp h1 with h2 | h2
          · exact Or.inl h2
          · exact Or.inr ⟨il, List.mem_cons_self il pairs, h2⟩
        · obtain ⟨q, hq, hf⟩ := h1
          exact Or.inr ⟨q, List.mem_cons_of_mem il hq, hf⟩
    have hkey : p.1 ∈ ((process_file (some lines) rp kp cs).map Prod.fst) :=
      List.mem_map.mpr ⟨p, hp, rfl⟩
    unfold process_file at hkey
    rcases key (lines.enumFrom 1) [] p.1 hkey with h | ⟨il, _, hf⟩
    · simp at h
    · have : p.1 ∈ extract_keywords kp (if cs then il.2 else lower il.2) := by
        have := hf
        unfold foundTerms at this
        exact List.mem_dedup.mp this
      exact extract_keywords_subset this

/-- `termList[term].extend(hits)` succeeds on present keys, preserves the
key sequence, and appends exactly to that term's hit list. -/
lemma dictExtend_ok {k : Str} {d : List (Str × List Hit)} (xs : List Hit)
    (hk : k ∈ d.map Prod.fst) :
    ∃ d', dictExtend k xs d = some d' ∧ d'.map Prod.fst = d.map Prod.fst ∧
      ∀ t, dictGet t d' = if t = k then dictGet t d ++ xs else dictGet t d := by
  induction d with
  | nil => simp at hk
  | cons p rest ih =>
    by_cases hpk : p.1 = k
    · refine ⟨(p.1, p.2 ++ xs) :: rest, ?_, by simp, ?_⟩
      · simp [dictExtend, hpk]
      · intro t
        by_cases hpt : p.1 = t
        · have : t = k := hpt ▸ hpk
          simp [dictGet, hpt, this]
        · have : ¬ t = k := fun h => hpt (hpk.trans h.symm)
          simp [dictGet, hpt, this]
    · have hk' : k ∈ rest.map Prod.fst := by
        simp only [List.map_cons, List.mem_cons] at hk
        rcases hk with h | h
        · exact absurd h.symm hpk
        · exact h
      obtain ⟨d', hd', hkeys, hget⟩ := ih hk'
      refine ⟨(p.1, p.2) :: d', ?_, by simpa using hkeys, ?_⟩
      · simp [dictExtend, hpk, hd']
      · intro t
        by_cases hpt : p.1 = t
        · have : ¬ t = k := fun h => hpk (hpt.trans h)
          simp [dictGet, hpt, this]
        · simpa [dictGet, hpt] using hget t

/-- A `none` accumulator never recovers in the merge folds. -/
lemma foldl_bind_none {β : Type} (g : List (Str × List Hit) → β → Option (List (Str × List Hit)))
    (r : List β) :
    r.foldl (fun acc p => acc.bind (fun d => g d p)) none = none := by
  induction r with
  | nil => rfl
  | cons p r ih => simpa using ih

/-- Merging one worker result succeeds when all its keys are present,
preserves the key sequence, and appends that result's hits per term. -/
lemma mergeResult_ok {d r : List (Str × List Hit)}
    (hcov : ∀ p ∈ r, p.1 ∈ d.map Prod.fst) :
    ∃ d', mergeResult d r = some d' ∧ d'.map Prod.fst = d.map Prod.fst ∧
      ∀ t, dictGet t d' = dictGet t d ++ resHits t r := by
  induction r generalizing d with
  | nil => exact ⟨d, rfl, rfl, by simp [resHits]⟩
  | cons p r ih =>
    obtain ⟨d₁, hd₁, hkeys₁, hget₁⟩ :=
      dictExtend_ok (d := d) p.2 (hcov p (List.mem_cons_self p r))
    obtain ⟨d₂, hd₂, hkeys₂, hget₂⟩ :=
      ih (d := d₁) (fun q hq => hkeys₁ ▸ hcov q (List.mem_cons_of_mem p hq))
    refine ⟨d₂, ?_, hkeys₂.trans hkeys₁, ?_⟩
    · unfold mergeResult at hd₂ ⊢
      simpa [hd₁] using hd₂
    · intro t
      rw [hget₂ t, hget₁ t, resHits]
      by_cases ht : p.1 = t
      · simp [resHits, ht, eq_comm]
      · have : ¬ t = p.1 := fun h => ht h.symm
        simp [resHits, ht, this]

/-- Merging every worker result, in any completion order, succeeds when
all result keys are keys of `termList`; the key sequence is preserved and
each term's final hit list is its initial one followed by the
concatenation of the per-result hits in completion order. -/
lemma mergeAll_ok {d : List (Str × List Hit)} {results : List (List (Str × List Hit))}
    (hcov : ∀ r ∈ results, ∀ p ∈ r, p.1 ∈ d.map Prod.fst) :
    ∃ d', mergeAll d results = some d' ∧ d'.map Prod.fst = d.map Prod.fst ∧
      ∀ t, dictGet t d' = dictGet t d ++ results.flatMap (fun r => resHits t r) := by
  induction results generalizing d with
  | nil => exact ⟨d, rfl, rfl, by simp⟩
  | cons r results ih =>
    obtain ⟨d₁, hd₁, hkeys₁, hget₁⟩ :=
      mergeResult_ok (d := d) (hcov r (List.mem_cons_self r results))
    obtain ⟨d₂, hd₂, hkeys₂, hget₂⟩ := ih (d := d₁)
      (fun q hq p hp => hkeys₁ ▸ hcov q (List.mem_cons_of_mem r hq) p hp)
    refine ⟨d₂, ?_, hkeys₂.trans hkeys₁, ?_⟩
    · unfold mergeAll at hd₂ ⊢
      simpa [hd₁] using hd₂
    · intro t
      rw [hget₂ t, hget₁ t]
      simp [List.append_assoc]

/-- The key sequence after a dict insertion. -/
lemma keys_dictInsert (k : Str) (v : List Hit) (d : List (Str × List Hit)) :
    (dictInsert k v d).map Prod.fst =
      if k ∈ d.map Prod.fst then d.map Prod.fst else d.map Prod.fst ++ [k] := by
  induction d with
  | nil => simp [dictInsert]
  | cons p rest ih =>
    by_cases hpk : p.1 = k
    · simp [dictInsert, hpk]
    · have h2 : ¬ k = p.1 := fun h => hpk h.symm
      by_cases hm : k ∈ rest.map Prod.fst <;>
        simp [dictInsert, hpk, ih, hm, List.mem_cons, h2]

/-- Values after a dict insertion come from the insertion or from before. -/
lemma values_dictInsert {k : Str} {v : List Hit} {d : List (Str × List Hit)}
    {p : Str × List Hit} (hp : p ∈ dictInsert k v d) : p.2 = v ∨ p ∈ d := by
  induction d with
  | nil =>
    simp only [dictInsert, List.mem_singleton] at hp
    exact Or.inl (by rw [hp])
  | cons q rest ih =>
    obtain ⟨a, b⟩ := q
    unfold dictInsert at hp
    by_cases hqk : a = k
    · rw [if_pos hqk] at hp
      rcases List.mem_cons.mp hp with h | h
      · exact Or.inl (by rw [h])
      · exact Or.inr (List.mem_cons_of_mem (a, b) h)
    · rw [if_neg hqk] at hp
      rcases List.mem_cons.mp hp with h | h
      · exact Or.inr (List.mem_cons.mpr (Or.inl h))
      · rcases ih h with h2 | h2
        · exact Or.inl h2
        · exact Or.inr (List.mem_cons_of_mem (a, b) h2)

/-- The `LoadTermList` dict comprehension, folded over any term list:
keys stay without duplicates, key membership is membership of a
canonicalized term, and every value is the empty hit list. -/
lemma foldInsert_ok (cs : Bool) (ts : List Str) (d : List (Str × List Hit))
    (hnd : (d.map Prod.fst).Nodup) (hval : ∀ p ∈ d, p.2 = ([] : List Hit)) :
    ((ts.foldl (fun d term =>
        dictInsert (if cs then term else lower term) [] d) d).map Prod.fst).Nodup ∧
    (∀ t, t ∈ ((ts.foldl (fun d term =>
        dictInsert (if cs then term else lower term) [] d) d).map Prod.fst) ↔
      t ∈ d.map Prod.fst ∨ t ∈ ts.map (fun term => if cs then term else lower term)) ∧
    ∀ p ∈ ts.foldl (fun d term =>
        dictInsert (if cs then term else lower term) [] d) d, p.2 = ([] : List Hit) := by
  induction ts generalizing d with
  | nil => exact ⟨hnd, by simp, hval⟩
  | cons t ts ih =>
    set k := if cs then t else lower t with hk
    have hnd₁ : ((dictInsert k [] d).map Prod.fst).Nodup := by
      rw [keys_dictInsert]
      by_cases hm : k ∈ d.map Prod.fst
      · rw [if_pos hm]; exact hnd
      · rw [if_neg hm, List.nodup_append]
        refine ⟨hnd, List.nodup_singleton k, ?_⟩
        intro a ha hb
        rw [List.mem_singleton.mp hb] at ha
        exact hm ha
    have hval₁ : ∀ p ∈ dictInsert k [] d, p.2 = ([] : List Hit) := by
      intro p hp
      rcases values_dictInsert hp with h | h
      · exact h
      · exact hval p h
    obtain ⟨h1, h2, h3⟩ := ih (dictInsert k [] d) hnd₁ hval₁
    refine ⟨h1, ?_, h3⟩
    intro u
    rw [List.foldl_cons] at *
    rw [h2 u, keys_dictInsert]
    by_cases hm : k ∈ d.map Prod.fst <;>
      by_cases hu : u = k <;>
      simp [hm, hu, List.mem_cons]

/-- In a hit list with strictly increasing line numbers, at most one hit
lies on any given line. -/
lemma pairwise_filter_length_le_one {l : List Hit} {i : Nat}
    (hp : l.Pairwise (fun a b => a.2 < b.2)) :
    (l.filter (fun h => h.2 == i)).length ≤ 1 := by
  induction l with
  | nil => simp
  | cons h l ih =>
    have hrest := ih (List.Pairwise.of_cons hp)
    by_cases hc : h.2 = i
    · have hnil : l.filter (fun h => h.2 == i) = [] := by
        refine List.filter_eq_nil_iff.mpr ?_
        intro a ha
        have := List.rel_of_pairwise_cons hp ha
        simp only [beq_iff_eq]
        omega
      simp [List.filter_cons, hc, hnil]
    · simpa [List.filter_cons, hc] using hrest

/-- The boundary filter, characterized by the adjacent characters. -/
lemma isWholeToken_iff {line : Str} {s e : Nat} (hs : s ≤ line.length)
    (he : e ≤ line.length) :
    isWholeToken line s e = true ↔
      ((s = 0 ∨ ∃ c, line.get? (s - 1) = some c ∧ c.isAlphanum = false) ∧
       (e = line.length ∨ ∃ c, line.get? e = some c ∧ c.isAlphanum = false)) := by
  unfold isWholeToken
  rw [Bool.and_eq_true]
  constructor
  · rintro ⟨hl, hr⟩
    constructor
    · by_cases h0 : s = 0
      · exact Or.inl h0
      · rw [if_neg h0] at hl
        have hlt : s - 1 < line.length := by omega
        obtain ⟨c, hc⟩ : ∃ c, line.get? (s - 1) = some c :=
          ⟨line.get ⟨s - 1, hlt⟩, List.get?_eq_get hlt⟩
        rw [hc] at hl
        refine Or.inr ⟨c, hc, ?_⟩
        simpa using hl
    · by_cases hel : e = line.length
      · exact Or.inl hel
      · have hlt : e < line.length := by omega
        obtain ⟨c, hc⟩ : ∃ c, line.get? e = some c :=
          ⟨line.get ⟨e, hlt⟩, List.get?_eq_get hlt⟩
        rw [hc] at hr
        refine Or.inr ⟨c, hc, ?_⟩
        simpa using hr
  · rintro ⟨hl, hr⟩
    constructor
    · rcases hl with h0 | ⟨c, hc, hal⟩
      · rw [if_pos h0]
      · by_cases h0 : s = 0
        · rw [if_pos h0]
        · rw [if_neg h0, hc]
          simpa using hal
    · rcases hr with hel | ⟨c, hc, hal⟩
      · rw [List.get?_eq_none.mpr (le_of_eq hel.symm)]
      · rw [hc]
        simpa using hal

/-- Every row contributed by a `termList` entry starts with its term. -/
lemma rowsFor_head {p : Str × List Hit} {row : List Str} (hr : row ∈ rowsFor p) :
    ∃ x y, row = [p.1, x, y] := by
  unfold rowsFor at hr
  by_cases hp : p.2 = []
  · rw [if_pos hp] at hr
    exact ⟨str "N/A", str "N/A", by simpa using hr⟩
  · rw [if_neg hp] at hr
    obtain ⟨h, -, he⟩ := List.mem_map.mp hr
    exact ⟨h.1, natCell h.2, he.symm⟩

/-- The imperative CSV writer, as header plus per-entry rows. -/
lemma WriteOutput_eq_flatMap (termList : List (Str × List Hit)) :
    WriteOutput termList = headerRow :: termList.flatMap rowsFor := by
  have key : ∀ (l : List (Str × List Hit)) (acc : List (List Str)),
      l.foldl (fun acc p =>
          if p.2 ≠ [] then acc ++ p.2.map (fun h => [p.1, h.1, natCell h.2])
          else acc ++ [[p.1, str "N/A", str "N/A"]]) acc =
        acc ++ l.flatMap rowsFor := by
    intro l
    induction l with
    | nil => intro acc; simp
    | cons p rest ih =>
      intro acc
      rw [List.foldl_cons, ih, List.flatMap_cons]
      by_cases hp : p.2 = [] <;> simp [rowsFor, hp]
  unfold WriteOutput
  rw [key]
  simp

/-- A zero-hit term with an unduplicated key contributes exactly one
`N/A` row to the flattened data rows. -/
lemma count_NA_row {t : Str} : ∀ {termList : List (Str × List Hit)},
    (termList.map Prod.fst).Nodup → (t, ([] : List Hit)) ∈ termList →
    (termList.flatMap rowsFor).count [t, str "N/A", str "N/A"] = 1 := by
  intro termList
  induction termList with
  | nil => intro _ h; cases h
  | cons p rest ih =>
    intro hnd hmem
    have hnd2 : (p.1 :: rest.map Prod.fst).Nodup := by simpa using hnd
    have hnd' : (rest.map Prod.fst).Nodup := hnd2.of_cons
    have hhead : p.1 ∉ rest.map Prod.fst := (List.nodup_cons.mp hnd2).1
    rw [List.flatMap_cons, List.count_append]
    rcases List.mem_cons.mp hmem with he | hm
    · have hp1 : p.1 = t := by rw [← he]
      have hrest : (rest.flatMap rowsFor).count [t, str "N/A", str "N/A"] = 0 := by
        refine List.count_eq_zero.mpr ?_
        intro hc
        obtain ⟨q, hq, hrow⟩ := List.mem_flatMap.mp hc
        obtain ⟨x, y, hxy⟩ := rowsFor_head hrow
        have hq1 : q.1 = t := by
          have h2 := congrArg List.head? hxy
          simp only [List.head?_cons, Option.some_inj] at h2
          exact h2.symm
        refine hhead ?_
        rw [hp1]
        exact List.mem_map.mpr ⟨q, hq, hq1⟩
      rw [hrest, ← he]
      simp [rowsFor]
    · have hpt : p.1 ≠ t := by
        intro h
        refine hhead ?_
        rw [h]
        exact List.mem_map.mpr ⟨(t, []), hm, rfl⟩
      have hzero : (rowsFor p).count [t, str "N/A", str "N/A"] = 0 := by
        refine List.count_eq_zero.mpr ?_
        intro hc
        obtain ⟨x, y, hxy⟩ := rowsFor_head hc
        refine hpt ?_
        have h2 := congrArg List.head? hxy
        simp only [List.head?_cons, Option.some_inj] at h2
        exact h2.symm
      rw [hzero, ih hnd' hm]

end Lemmas

/-- C2: the claim that under case-insensitive scanning two input terms
with equal lower-cased forms (`Apple`, `apple`) each retain their own
independent zero-initialized hit list keyed by the original term string
is FALSE: `LoadTermList` keys the dict by the canonicalized string, so
the two terms collapse into the single entry `("apple", [])` and the key
`"Apple"` does not appear. -/
theorem C2_counterexample_apple_collapse :
    LoadTermList (some (str "Apple apple")) false = .ok [(str "apple", [])] ∧
    ∀ d, LoadTermList (some (str "Apple apple")) false = .ok d →
      str "Apple" ∉ d.map Prod.fst := by
  refine ⟨by rfl, ?_⟩
  intro d hd
  have : d = [(str "apple", [])] := by
    have h2 : Except.ok (ε := LoadError) d = .ok [(str "apple", [])] := by
      rw [← hd]; rfl
    simpa using h2
  rw [this]
  decide

/-- C2 (amended): `LoadTermList` keys its result dict by the canonical
term string (lower-cased unless case-sensitive): the keys are exactly the
canonicalized terms of the source without duplicates — so terms whose
canonical forms coincide share one entry — and every entry starts with an
empty hit list. -/
theorem C2_amended_canonical_keys (content : Str) (cs : Bool) :
    ∃ d, LoadTermList (some content) cs = .ok d ∧
      (d.map Prod.fst).Nodup ∧
      (∀ t, t ∈ d.map Prod.fst ↔
        t ∈ (splitWs content).map (fun term => if cs then term else lower term)) ∧
      ∀ p ∈ d, p.2 = ([] : List Hit) := by
  obtain ⟨h1, h2, h3⟩ := foldInsert_ok cs (splitWs content) [] (by simp) (by simp)
  refine ⟨_, rfl, h1, ?_, h3⟩
  intro t
  rw [h2 t]
  simp

/-- C4: `process_file` records at most one hit per term per line — the
hit list of any term holds at most one entry with any given line
number — while the same term on two different lines of one file yields
two hits, as on the file `["x apple apple", "apple"]`. -/
theorem C4_one_hit_per_term_per_line (content : Option (List Str)) (rp t : Str)
    (kp : KeywordProcessor) (cs : Bool) (i : Nat) :
    ((dictGet t (process_file content rp kp cs)).filter
        (fun h => h.2 == i)).length ≤ 1 ∧
    dictGet (str "apple")
        (process_file (some [str "x apple apple", str "apple"]) (str "f")
          (BuildKeywordProcessor [str "apple"] false) false) =
      [(str "f", 1), (str "f", 2)] := by
  refine ⟨?_, by rfl⟩
  match content with
  | none => simp [process_file, dictGet]
  | some lines =>
    exact pairwise_filter_length_le_one (process_file_sorted kp cs rp t lines).1

/-- C5: the claim that every file that cannot be read yields an empty
result mapping is FALSE for a read failing mid-file: the bare `except`
wraps the whole read loop, so a read that aborts after yielding the line
`an apple` returns the partial, non-empty `term_hits` accumulated before
the failure. -/
theorem C5_counterexample_midread_partial_hits :
    process_file_errs (some ⟨[str "an apple"], true⟩) (str "f")
        (BuildKeywordProcessor [str "apple"] false) false =
      [(str "apple", [(str "f", 1)])] ∧
    process_file_errs (some ⟨[str "an apple"], true⟩) (str "f")
        (BuildKeywordProcessor [str "apple"] false) false ≠ [] :=
  ⟨by rfl, by decide⟩

/-- C5 (amended): a file whose `open` fails yields the empty result
mapping — contributing no hits at all — and merging that empty result
leaves the shared `termList` unchanged; a file whose read fails mid-way
yields exactly the hits accumulated from the lines read before the
failure, whether or not the read aborted; in every case `except: pass`
swallows the failure inside the worker, so the scan of the rest of the
corpus continues unaffected. -/
theorem C5_amended_open_fail_empty_midread_partial (relpath t : Str)
    (kp : KeywordProcessor) (cs : Bool) (termList : List (Str × List Hit))
    (r : ReadOutcome) :
    process_file_errs none relpath kp cs = [] ∧
    mergeResult termList (process_file_errs none relpath kp cs) = some termList ∧
    dictGet t (process_file_errs (some r) relpath kp cs) =
      lineHits kp cs relpath t (r.lines.enumFrom 1) := by
  refine ⟨rfl, rfl, ?_⟩
  unfold process_file_errs
  rw [dictGet_foldProcess]
  simp [dictGet]

/-- C7: the claim that a term source that is present but empty after
whitespace splitting raises a fatal error before scanning is FALSE:
`LoadTermList` returns the empty dict without error, the scan proceeds,
and output (a lone header row) is produced. -/
theorem C7_counterexample_empty_source_no_error :
    LoadTermList (some (str "  ")) false = .ok [] ∧
    ScanFiles [(str "f", some [str "x y"])] [] false = some [] ∧
    WriteOutput [] = [headerRow] :=
  ⟨by rfl, by rfl, by rfl⟩

/-- C7 (amended): if the term source is absent, `LoadTermList` raises the
fatal `FileNotFoundError` before `ScanFiles` is ever invoked; if it is
present but contains no terms after whitespace splitting, no error is
raised: the scan proceeds over an empty term table and the output holds
only the header row. -/
theorem C7_amended_absent_fatal_empty_proceeds (cs : Bool) (content : Str)
    (files : List (Str × Option (List Str)))
    (h : splitWs content = []) :
    LoadTermList none cs = .error .fileNotFound ∧
    LoadTermList (some content) cs = .ok [] ∧
    ScanFiles files [] cs = some [] ∧
    WriteOutput [] = [headerRow] := by
  refine ⟨rfl, ?_, ?_, rfl⟩
  · rw [show LoadTermList (some content) cs =
        .ok ((splitWs content).foldl
          (fun d term => dictInsert (if cs then term else lower term) [] d) []) from rfl, h]
    rfl
  · have hempty : ∀ f ∈ files,
        process_file f.2 f.1 (BuildKeywordProcessor (([] : List (Str × List Hit)).map Prod.fst) cs) cs = [] := by
      intro f hf
      set kp := BuildKeywordProcessor (([] : List (Str × List Hit)).map Prod.fst) cs with hkp
      match hres : process_file f.2 f.1 kp cs with
      | [] => rfl
      | p :: rest =>
        exfalso
        have hp : p ∈ process_file f.2 f.1 kp cs := by rw [hres]; exact List.mem_cons_self p rest
        have := process_file_keys_subset hp
        rw [hkp, (BuildKeywordProcessor_keywords _ cs).1] at this
        simp at this
    have hmap : files.map (fun f =>
        process_file f.2 f.1 (BuildKeywordProcessor (([] : List (Str × List Hit)).map Prod.fst) cs) cs) =
        files.map (fun _ => []) := List.map_congr_left hempty
    have hrep : ∀ n, mergeAll [] (List.replicate n ([] : List (Str × List Hit))) = some [] := by
      intro n
      induction n with
      | zero => rfl
      | succ n ih => simpa [mergeAll, mergeResult] using ih
    have hgoal : mergeAll [] (files.map fun f =>
        process_file f.2 f.1 (BuildKeywordProcessor (([] : List (Str × List Hit)).map Prod.fst) cs) cs) = some [] := by
      rw [hmap, List.map_const']
      exact hrep files.length
    exact hgoal

/-- Witness for C7 (amended) at a blank term source and one concrete
file. -/
theorem C7_amended_witness :
    LoadTermList none false = .error .fileNotFound ∧
    LoadTermList (some (str " ")) false = .ok [] ∧
    ScanFiles [(str "f", some [str "x y"])] [] false = some [] ∧
    WriteOutput [] = [headerRow] :=
  C7_amended_absent_fatal_empty_proceeds false (str " ")
    [(str "f", some [str "x y"])] (by rfl)

/-- C9: within a single file, the hits `process_file` records for any
term are in strictly ascending 1-based line-number order. -/
theorem C9_hits_ascending_within_file (lines : List Str) (rp t : Str)
    (kp : KeywordProcessor) (cs : Bool) :
    (dictGet t (process_file (some lines) rp kp cs)).Pairwise
        (fun a b => a.2 < b.2) ∧
      ∀ h ∈ dictGet t (process_file (some lines) rp kp cs), 1 ≤ h.2 :=
  process_file_sorted kp cs rp t lines

/-- C1: the automaton scan returns every pattern occurrence in the line
(overlap-tolerant); with patterns `apple` and `apple1` and the line
`apple apple1`, the raw hit for `apple` at offsets (6, 11) — lying inside
the `apple1` occurrence (6, 12) — is produced and rejected by the
boundary rule (the adjacent character `1` is alphanumeric), and each of
the two patterns receives exactly one hit on the line, not zero and not
two. -/
theorem C1_scan_overlap_tolerant (kp : KeywordProcessor)
    (line pat name : Str) (i : Nat)
    (hk : (pat, name) ∈ kp.keywords) (hne : pat ≠ [])
    (hocc : (line.drop i).take pat.length = pat) :
    (i, i + pat.length, name) ∈ rawMatches kp line ∧
    (6, 11, str "apple") ∈
      rawMatches (BuildKeywordProcessor [str "apple", str "apple1"] false)
        (str "apple apple1") ∧
    isWholeToken (str "apple apple1") 6 11 = false ∧
    (extract_keywords (BuildKeywordProcessor [str "apple", str "apple1"] false)
        (str "apple apple1")).count (str "apple") = 1 ∧
    (extract_keywords (BuildKeywordProcessor [str "apple", str "apple1"] false)
        (str "apple apple1")).count (str "apple1") = 1 :=
  ⟨mem_rawMatches_occ hk hne hocc, by decide, by decide, by decide, by decide⟩

/-- Witness for C1 at pattern `apple` occurring at offset 0 of the line
`apple1`. -/
theorem C1_scan_overlap_tolerant_witness :
    (0, 0 + (str "apple").length, str "apple") ∈
      rawMatches (BuildKeywordProcessor [str "apple", str "apple1"] false)
        (str "apple1") ∧
    (6, 11, str "apple") ∈
      rawMatches (BuildKeywordProcessor [str "apple", str "apple1"] false)
        (str "apple apple1") ∧
    isWholeToken (str "apple apple1") 6 11 = false ∧
    (extract_keywords (BuildKeywordProcessor [str "apple", str "apple1"] false)
        (str "apple apple1")).count (str "apple") = 1 ∧
    (extract_keywords (BuildKeywordProcessor [str "apple", str "apple1"] false)
        (str "apple apple1")).count (str "apple1") = 1 :=
  C1_scan_overlap_tolerant
    (BuildKeywordProcessor [str "apple", str "apple1"] false)
    (str "apple1") (str "apple") (str "apple") 0
    (by decide) (by decide) (by decide)

/-- C3: a raw occurrence is recorded as a hit if and only if the
character immediately before its start (none at line start) and the
character immediately after its end (none at line end) are both not
alphanumeric; `apple` surrounded by quotes or parentheses still hits,
while `apple` inside `pineapple` does not. -/
theorem C3_whole_token_boundary (kp : KeywordProcessor)
    (line pat name : Str) (i : Nat)
    (hk : (pat, name) ∈ kp.keywords) (hne : pat ≠ [])
    (hocc : (line.drop i).take pat.length = pat) :
    ((i, i + pat.length, name) ∈ acceptedMatches kp line ↔
      ((i = 0 ∨ ∃ c, line.get? (i - 1) = some c ∧ c.isAlphanum = false) ∧
       (i + pat.length = line.length ∨
         ∃ c, line.get? (i + pat.length) = some c ∧ c.isAlphanum = false))) ∧
    str "apple" ∈
      extract_keywords (BuildKeywordProcessor [str "apple"] false) (str "'apple'") ∧
    str "apple" ∈
      extract_keywords (BuildKeywordProcessor [str "apple"] false) (str "(apple)") ∧
    str "apple" ∉
      extract_keywords (BuildKeywordProcessor [str "apple"] false) (str "pineapple") := by
  refine ⟨?_, by decide, by decide, by decide⟩
  have hle := occ_le_length hne hocc
  have hraw := mem_rawMatches_occ hk hne hocc
  unfold acceptedMatches
  rw [List.mem_filter]
  constructor
  · rintro ⟨-, hw⟩
    exact (isWholeToken_iff (by omega) hle).mp hw
  · intro hb
    exact ⟨hraw, (isWholeToken_iff (by omega) hle).mpr hb⟩

/-- Witness for C3 at pattern `apple` occurring at offset 1 of the line
`'apple'`. -/
theorem C3_whole_token_boundary_witness :
    ((1, 1 + (str "apple").length, str "apple") ∈
        acceptedMatches (BuildKeywordProcessor [str "apple"] false) (str "'apple'") ↔
      ((1 = 0 ∨ ∃ c, (str "'apple'").get? (1 - 1) = some c ∧ c.isAlphanum = false) ∧
       (1 + (str "apple").length = (str "'apple'").length ∨
         ∃ c, (str "'apple'").get? (1 + (str "apple").length) = some c ∧
           c.isAlphanum = false))) ∧
    str "apple" ∈
      extract_keywords (BuildKeywordProcessor [str "apple"] false) (str "'apple'") ∧
    str "apple" ∈
      extract_keywords (BuildKeywordProcessor [str "apple"] false) (str "(apple)") ∧
    str "apple" ∉
      extract_keywords (BuildKeywordProcessor [str "apple"] false) (str "pineapple") :=
  C3_whole_token_boundary (BuildKeywordProcessor [str "apple"] false)
    (str "'apple'") (str "apple") (str "apple") 1
    (by decide) (by decide) (by decide)

/-- C10: every term key of a `process_file` result is one of the keyword
identities added by `BuildKeywordProcessor`, which are exactly
`termList`'s keys, so the merge `termList[term].extend(hits)` never
raises `KeyError` and `ScanFiles` preserves `termList`'s key sequence
(neither adding nor removing keys). -/
theorem C10_merge_never_raises_keyerror (files : List (Str × Option (List Str)))
    (termList : List (Str × List Hit)) (cs : Bool) :
    (∀ f ∈ files, ∀ p ∈ process_file f.2 f.1
        (BuildKeywordProcessor (termList.map Prod.fst) cs) cs,
      p.1 ∈ termList.map Prod.fst) ∧
    ∃ d, ScanFiles files termList cs = some d ∧
      d.map Prod.fst = termList.map Prod.fst := by
  have hcov : ∀ f ∈ files, ∀ p ∈ process_file f.2 f.1
      (BuildKeywordProcessor (termList.map Prod.fst) cs) cs,
      p.1 ∈ termList.map Prod.fst := by
    intro f hf p hp
    have := process_file_keys_subset hp
    rwa [(BuildKeywordProcessor_keywords _ cs).1] at this
  refine ⟨hcov, ?_⟩
  have hcov2 : ∀ r ∈ files.map (fun f => process_file f.2 f.1
      (BuildKeywordProcessor (termList.map Prod.fst) cs) cs), ∀ p ∈ r,
      p.1 ∈ termList.map Prod.fst := by
    intro r hr p hp
    obtain ⟨f, hf, he⟩ := List.mem_map.mp hr
    exact hcov f hf p (he ▸ hp)
  obtain ⟨d, hd, hkeys, -⟩ := mergeAll_ok hcov2
  exact ⟨d, hd, hkeys⟩

/-- C6: merging the per-file worker results in any completion order (any
permutation of the sequential order — pool size 1 versus pool size
greater than 1) succeeds and yields the same key sequence and, per term,
the same multiset of hits: no update is lost. -/
theorem C6_pool_size_immaterial (files : List (Str × Option (List Str)))
    (termList : List (Str × List Hit)) (cs : Bool)
    (order : List (List (Str × List Hit)))
    (hperm : order.Perm (files.map fun f => process_file f.2 f.1
      (BuildKeywordProcessor (termList.map Prod.fst) cs) cs)) :
    ∃ d d', ScanFiles files termList cs = some d ∧
      mergeAll termList order = some d' ∧
      d.map Prod.fst = d'.map Prod.fst ∧
      ∀ t, (dictGet t d).Perm (dictGet t d') := by
  have hcov2 : ∀ r ∈ files.map (fun f => process_file f.2 f.1
      (BuildKeywordProcessor (termList.map Prod.fst) cs) cs), ∀ p ∈ r,
      p.1 ∈ termList.map Prod.fst := by
    intro r hr p hp
    obtain ⟨f, hf, he⟩ := List.mem_map.mp hr
    have := process_file_keys_subset (he ▸ hp)
    rwa [(BuildKeywordProcessor_keywords _ cs).1] at this
  have hcov3 : ∀ r ∈ order, ∀ p ∈ r, p.1 ∈ termList.map Prod.fst :=
    fun r hr => hcov2 r (hperm.mem_iff.mp hr)
  obtain ⟨d, hd, hkeys, hget⟩ := mergeAll_ok hcov2
  obtain ⟨d', hd', hkeys', hget'⟩ := mergeAll_ok hcov3
  refine ⟨d, d', hd, hd', hkeys.trans hkeys'.symm, ?_⟩
  intro t
  rw [hget t, hget' t]
  exact List.Perm.append_left _ ((hperm.flatMap_right (fun r => resHits t r)).symm)

/-- Witness for C6 on a two-file corpus merged in reversed completion
order. -/
theorem C6_pool_size_immaterial_witness :
    ∃ d d', ScanFiles [(str "f", some [str "a"]), (str "g", some [str "a"])]
        [(str "a", [])] false = some d ∧
      mergeAll [(str "a", [])]
        [[(str "a", [(str "g", 1)])], [(str "a", [(str "f", 1)])]] = some d' ∧
      d.map Prod.fst = d'.map Prod.fst ∧
      ∀ t, (dictGet t d).Perm (dictGet t d') :=
  C6_pool_size_immaterial [(str "f", some [str "a"]), (str "g", some [str "a"])]
    [(str "a", [])] false
    [[(str "a", [(str "g", 1)])], [(str "a", [(str "f", 1)])]] (by decide)

/-- C8: `WriteOutput` emits the header row `Word`, `Filepath`,
`Line Number` followed by exactly one data row per (term, hit) pair in
term-then-hit order, a zero-hit term contributing exactly one row whose
`Filepath` and `Line Number` cells are both `N/A`. -/
theorem C8_output_shape (termList : List (Str × List Hit)) (t : Str)
    (hnd : (termList.map Prod.fst).Nodup)
    (hmem : (t, ([] : List Hit)) ∈ termList) :
    WriteOutput termList = headerRow :: termList.flatMap rowsFor ∧
    (WriteOutput termList).length =
      1 + (termList.map (fun p => max 1 p.2.length)).sum ∧
    (WriteOutput termList).count [t, str "N/A", str "N/A"] = 1 := by
  have hflat := WriteOutput_eq_flatMap termList
  refine ⟨hflat, ?_, ?_⟩
  · rw [hflat]
    simp only [List.length_cons, List.length_flatMap]
    have hcong : termList.map (List.length ∘ rowsFor) =
        termList.map fun p => max 1 p.2.length := by
      refine List.map_congr_left ?_
      intro p hp
      simp only [Function.comp]
      unfold rowsFor
      by_cases h : p.2 = []
      · simp [h]
      · have h1 : 1 ≤ p.2.length := List.length_pos.mpr h
        simp [h, Nat.max_eq_right h1]
    rw [hcong]
    omega
  · rw [hflat, List.count_cons]
    have hne : headerRow ≠ [t, str "N/A", str "N/A"] := by
      intro hcontra
      have h2 : str "Filepath" = str "N/A" := by
        have h3 := congrArg (fun l => l.get? 1) hcontra
        simpa [headerRow] using h3
      exact absurd h2 (by decide)
    rw [beq_eq_false_iff_ne.mpr hne]
    simp [count_NA_row hnd hmem]

/-- Witness for C8 on a two-term table where `melon` has no hits. -/
theorem C8_output_shape_witness :
    WriteOutput [(str "grape", [(str "file1.txt", 1)]), (str "melon", [])] =
      headerRow ::
        [(str "grape", [(str "file1.txt", 1)]),
          (str "melon", ([] : List Hit))].flatMap rowsFor ∧
    (WriteOutput [(str "grape", [(str "file1.txt", 1)]), (str "melon", [])]).length =
      1 + ([(str "grape", [(str "file1.txt", 1)]),
        (str "melon", ([] : List Hit))].map (fun p => max 1 p.2.length)).sum ∧
    (WriteOutput [(str "grape", [(str "file1.txt", 1)]),
        (str "melon", [])]).count [str "melon", str "N/A", str "N/A"] = 1 :=
  C8_output_shape [(str "grape", [(str "file1.txt", 1)]), (str "melon", [])]
    (str "melon") (by decide) (by decide)
